import Mathlib

/-!
Verification of obsidian-local-llm-helper against its specification.

The repository's `src/main.ts` contains the plugin code (in two concatenated
variants; the functions verified here are byte-identical across the two).
The RAG core (`./src/rag`: Chunker, Vector Store, RAGManager, persistence) is
imported by `main.ts` but its source file is not part of the snapshot, so those
components are modelled from the specification, as marked in their doc comments.

JavaScript strings are modelled as lists of characters (`JsStr`); the ASCII
fragment of JavaScript's whitespace and line-terminator classes is used, which
covers every string the plugin manipulates here.
-/

/-- JavaScript strings, modelled as lists of characters. -/
abbrev JsStr := List Char

/-- The ASCII part of JavaScript's whitespace class, as matched by `\s` and
removed by `String.prototype.trim`. -/
def isJsWs (c : Char) : Bool :=
  c = ' ' || c = '\t' || c = '\n' || c = '\r' || c = '\x0b' || c = '\x0c'

/-- JavaScript line terminators (ASCII part); the characters that `.` in a
regular expression without the `s` flag does not match. -/
def isLineTerm (c : Char) : Bool := c = '\n' || c = '\r'

/-- Model of `String.prototype.trim`. -/
def jsTrim (s : JsStr) : JsStr :=
  ((s.dropWhile isJsWs).reverse.dropWhile isJsWs).reverse

/-- Model of `String.prototype.indexOf(needle, fromIndex)`: the first position
at or after `start` where `needle` occurs in `hay`; `none` models JavaScript's
`-1` result. -/
def indexOfFrom (hay needle : JsStr) (start : Nat) : Option Nat :=
  ((List.range (hay.length + 1)).filter
    (fun i => decide (start ≤ i) && needle.isPrefixOf (hay.drop i))).head?

/-- One step of `String.prototype.split` with a non-empty separator; the fuel
bounds the number of separator occurrences and is always sufficient when
instantiated with the length of the string (each step consumes at least one
character of the input). -/
def splitOnSubAux (sep : JsStr) : Nat → JsStr → List JsStr
  | 0, s => [s]
  | fuel+1, s =>
    match indexOfFrom s sep 0 with
    | none => [s]
    | some i => s.take i :: splitOnSubAux sep fuel (s.drop (i + sep.length))

/-- Model of `String.prototype.split` with a string separator. -/
def splitOnSub (sep s : JsStr) : List JsStr :=
  if sep = [] then s.map (fun c => [c]) else splitOnSubAux sep s.length s

/-- The lowercased keywords of the answer-extraction regular expression
`/(?:Answer|Result|Output):\s*(.*)/i` of `extractActualResponse`
(src/main.ts line 2509 and line 5919).  All three have length 7. -/
def answerKeywords : List JsStr :=
  [String.toList "answer:", String.toList "result:", String.toList "output:"]

/-- Model of `response.match(/(?:Answer|Result|Output):\s*(.*)/i)`: the regular
expression matches at the leftmost position where one of the three keywords
occurs case-insensitively; `\s*` then greedily consumes whitespace (including
line terminators) and `(.*)` captures the remainder of that line.  Returns the
first capture group. -/
def findAnswerMatch (s : JsStr) : Option JsStr :=
  match ((List.range s.length).filter
      (fun i => answerKeywords.any
        (fun kw => kw.isPrefixOf ((s.drop i).map Char.toLower)))).head? with
  | none => none
  | some i =>
    let rest := (s.drop (i + 7)).dropWhile isJsWs
    some (rest.takeWhile (fun c => !(isLineTerm c)))

/-- Whether the first non-whitespace character of `s` is a dash: exactly when
the regular expression alternative `^\s*-\s*` matches at the start of `s`
(greedy `\s*` can only stop at the first non-whitespace character, which must
then be `-`). -/
def dashAt (s : JsStr) : Bool :=
  match s.drop (s.takeWhile isJsWs).length with
  | '-' :: _ => true
  | _ => false

/-- After the scanner of a `g`/`m` regular expression consumes `consumed`, the
next position is a line start exactly when the last consumed character is a
line terminator. -/
def lineStartAfter (consumed : JsStr) : Bool :=
  match consumed.getLast? with
  | some c => isLineTerm c
  | none => false

/-- Model of `s.replace(/^\s*-\s*|\*\s*/gm, '')` (src/main.ts line 2518 and
line 5928): scan left to right; at a line start try `^\s*-\s*` first, then
`\*\s*` anywhere; a match is deleted and scanning resumes after it.  The fuel
bounds the scan steps; each step consumes at least one character, so a fuel of
the string's length is always sufficient. -/
def cleanupAux : Nat → JsStr → Bool → JsStr
  | 0, s, _ => s
  | _+1, [], _ => []
  | fuel+1, c :: rest, atLineStart =>
    if atLineStart && dashAt (c :: rest) then
      let w := ((c :: rest).takeWhile isJsWs).length
      let w2 := (((c :: rest).drop (w + 1)).takeWhile isJsWs).length
      cleanupAux fuel ((c :: rest).drop (w + 1 + w2))
        (lineStartAfter ((c :: rest).take (w + 1 + w2)))
    else if c = '*' then
      let w2 := (rest.takeWhile isJsWs).length
      cleanupAux fuel (rest.drop w2) (lineStartAfter (c :: rest.take w2))
    else
      c :: cleanupAux fuel rest (isLineTerm c)

/-- The cleanup step `extractedResponse.replace(/^\s*-\s*|\*\s*/gm, '')` of
`extractActualResponse`; position 0 counts as a line start. -/
def cleanupArtifacts (s : JsStr) : JsStr := cleanupAux s.length s true

/-- A reasoning marker, as configured in `settings.reasoningMarkers`
(a JSON array of objects with string fields `start` and `end`; the latter is
renamed `endMark` here because `end` is a reserved word in Lean). -/
structure ReasoningMarker where
  start : JsStr
  endMark : JsStr
deriving DecidableEq, Repr

/-- A JSON value as produced by `JSON.parse`.  Numbers keep their source
lexeme: JavaScript's double formatting is not modelled, so the string coercion
of a number-valued marker field is its source numeral (which agrees with
JavaScript for canonically written numerals; no claim verified here depends on
a number-valued marker field). -/
inductive JsonValue where
  | null
  | bool (b : Bool)
  | num (lexeme : JsStr)
  | str (s : JsStr)
  | arr (elems : List JsonValue)
  | obj (fields : List (JsStr × JsonValue))
deriving Repr

/-- JSON whitespace: exactly space, tab, line feed and carriage return
(narrower than JavaScript's `\s`). -/
def isJsonWs (c : Char) : Bool := c = ' ' || c = '\t' || c = '\n' || c = '\r'

/-- The value of a hexadecimal digit. -/
def hexVal (c : Char) : Option Nat :=
  if '0' ≤ c ∧ c ≤ '9' then some (c.toNat - 48)
  else if 'a' ≤ c ∧ c ≤ 'f' then some (c.toNat - 87)
  else if 'A' ≤ c ∧ c ≤ 'F' then some (c.toNat - 70)
  else none

/-- Model of JSON string-literal parsing, after the opening quote has been
consumed: returns the decoded string and the rest of the input after the
closing quote.  As in `JSON.parse`, raw control characters are rejected, only
the eight JSON escapes and `\uXXXX` are accepted, and a lone surrogate escape
is accepted; a surrogate code unit is stored as U+FFFD because a Lean `Char`
holds only scalar values (acceptance, which the claims use, is unaffected).
The fuel bounds the characters consumed; each step consumes at least one, so
the input length plus one is always sufficient. -/
def parseJsonStringBody : Nat → JsStr → Option (JsStr × JsStr)
  | 0, _ => none
  | _+1, [] => none
  | fuel+1, c :: rest =>
    if c = '"' then some ([], rest)
    else if c.toNat < 32 then none
    else if c = '\\' then
      match rest with
      | [] => none
      | e :: rest2 =>
        if e = 'u' then
          match rest2 with
          | h1 :: h2 :: h3 :: h4 :: rest3 =>
            match hexVal h1, hexVal h2, hexVal h3, hexVal h4 with
            | some a, some b, some c2, some d =>
              match parseJsonStringBody fuel rest3 with
              | some (str, rem) =>
                some ((if 0xd800 ≤ ((a * 16 + b) * 16 + c2) * 16 + d ∧
                        ((a * 16 + b) * 16 + c2) * 16 + d ≤ 0xdfff then '�'
                      else Char.ofNat (((a * 16 + b) * 16 + c2) * 16 + d)) :: str, rem)
              | none => none
            | _, _, _, _ => none
          | _ => none
        else
          match
            (if e = '"' then some '"'
            else if e = '\\' then some '\\'
            else if e = '/' then some '/'
            else if e = 'n' then some '\n'
            else if e = 't' then some '\t'
            else if e = 'r' then some '\r'
            else if e = 'b' then some '\x08'
            else if e = 'f' then some '\x0c'
            else none) with
          | none => none
          | some d =>
            match parseJsonStringBody fuel rest2 with
            | some (str, rem) => some (d :: str, rem)
            | none => none
    else
      match parseJsonStringBody fuel rest with
      | some (str, rem) => some (c :: str, rem)
      | none => none

/-- The unsigned integer part of a JSON numeral: `0`, or a nonzero digit
followed by digits. -/
def parseJsonUInt (s : JsStr) : Option (JsStr × JsStr) :=
  match s with
  | c :: r =>
    if c = '0' then some (['0'], r)
    else if c.isDigit then
      some (c :: r.takeWhile Char.isDigit, r.drop (r.takeWhile Char.isDigit).length)
    else none
  | [] => none

/-- The integer part of a JSON numeral, with its optional minus sign. -/
def parseJsonInt (s : JsStr) : Option (JsStr × JsStr) :=
  match s with
  | '-' :: r =>
    match parseJsonUInt r with
    | none => none
    | some (ds, r2) => some ('-' :: ds, r2)
  | _ => parseJsonUInt s

/-- The optional fraction part of a JSON numeral. -/
def parseJsonFrac (s : JsStr) : Option (JsStr × JsStr) :=
  match s with
  | '.' :: r =>
    match r.takeWhile Char.isDigit with
    | [] => none
    | ds => some ('.' :: ds, r.drop ds.length)
  | _ => some ([], s)

/-- The optional exponent part of a JSON numeral. -/
def parseJsonExp (s : JsStr) : Option (JsStr × JsStr) :=
  match s with
  | c :: r =>
    if c = 'e' || c = 'E' then
      match r with
      | d :: r2 =>
        if d = '+' || d = '-' then
          match r2.takeWhile Char.isDigit with
          | [] => none
          | ds => some (c :: d :: ds, r2.drop ds.length)
        else
          match r.takeWhile Char.isDigit with
          | [] => none
          | ds => some (c :: ds, r.drop ds.length)
      | [] => none
    else some ([], s)
  | [] => some ([], [])

/-- A JSON numeral (`-? int frac? exp?`), returned as its lexeme. -/
def parseJsonNumber (s : JsStr) : Option (JsStr × JsStr) :=
  match parseJsonInt s with
  | none => none
  | some (ip, r1) =>
    match parseJsonFrac r1 with
    | none => none
    | some (fp, r2) =>
      match parseJsonExp r2 with
      | none => none
      | some (ep, r3) => some (ip ++ fp ++ ep, r3)

mutual

/-- Model of `JSON.parse` on the full JSON grammar (values, arrays, objects,
strings, numerals, `null`, `true`, `false`): `parseJsonValue` parses one value
and returns the rest of the input; `parseJsonItems` and `parseJsonFields`
parse the remaining elements of an array or object.  The mutual recursion is
fuelled; at least one input character is consumed for every two units of fuel,
so twice the input length plus a constant is always sufficient (string bodies
carry their own exact fuel). -/
def parseJsonValue : Nat → JsStr → Option (JsonValue × JsStr)
  | 0, _ => none
  | fuel+1, s =>
    match s.dropWhile isJsonWs with
    | [] => none
    | c :: r =>
      if c = '"' then
        match parseJsonStringBody (r.length + 1) r with
        | some (str, rem) => some (JsonValue.str str, rem)
        | none => none
      else if c = '[' then
        match r.dropWhile isJsonWs with
        | ']' :: rem => some (JsonValue.arr [], rem)
        | _ => parseJsonItems fuel [] r
      else if c = '\x7b' then
        match r.dropWhile isJsonWs with
        | '\x7d' :: rem => some (JsonValue.obj [], rem)
        | _ => parseJsonFields fuel [] r
      else if (String.toList "null").isPrefixOf (c :: r) then
        some (JsonValue.null, (c :: r).drop 4)
      else if (String.toList "true").isPrefixOf (c :: r) then
        some (JsonValue.bool true, (c :: r).drop 4)
      else if (String.toList "false").isPrefixOf (c :: r) then
        some (JsonValue.bool false, (c :: r).drop 5)
      else
        match parseJsonNumber (c :: r) with
        | some (lex, rem) => some (JsonValue.num lex, rem)
        | none => none

def parseJsonItems : Nat → List JsonValue → JsStr → Option (JsonValue × JsStr)
  | 0, _, _ => none
  | fuel+1, acc, s =>
    match parseJsonValue fuel s with
    | none => none
    | some (v, rem) =>
      match rem.dropWhile isJsonWs with
      | ',' :: rem2 => parseJsonItems fuel (acc ++ [v]) rem2
      | ']' :: rem2 => some (JsonValue.arr (acc ++ [v]), rem2)
      | _ => none

def parseJsonFields : Nat → List (JsStr × JsonValue) → JsStr → Option (JsonValue × JsStr)
  | 0, _, _ => none
  | fuel+1, acc, s =>
    match s.dropWhile isJsonWs with
    | '"' :: r =>
      match parseJsonStringBody (r.length + 1) r with
      | none => none
      | some (key, rem) =>
        match rem.dropWhile isJsonWs with
        | ':' :: rem2 =>
          match parseJsonValue fuel rem2 with
          | none => none
          | some (v, rem3) =>
            match rem3.dropWhile isJsonWs with
            | ',' :: rem4 => parseJsonFields fuel (acc ++ [(key, v)]) rem4
            | '\x7d' :: rem4 => some (JsonValue.obj (acc ++ [(key, v)]), rem4)
            | _ => none
        | _ => none
    | _ => none

end

/-- Model of `JSON.parse(s)`: parse one JSON value and require that only
whitespace follows; `none` exactly when `JSON.parse` throws a
`SyntaxError`. -/
def parseJsonText (s : JsStr) : Option JsonValue :=
  match parseJsonValue (2 * s.length + 8) s with
  | some (v, rem) => if rem.dropWhile isJsonWs = [] then some v else none
  | none => none

mutual

/-- Model of JavaScript string coercion (`String(v)`) for parsed JSON values,
as applied by `indexOf` to a marker's `start`/`end`: strings are themselves,
`null`/booleans their keywords, arrays join their elements with commas
(`null` rendering as empty), objects render as `[object Object]`, and numbers
keep their source lexeme (see `JsonValue.num`).  The mutual recursion is
fuelled on the nesting depth; the interpretation entry point passes the marker
text's length, which bounds the depth of any value parsed from it. -/
def jsToString : Nat → JsonValue → JsStr
  | 0, _ => []
  | _+1, JsonValue.null => String.toList "null"
  | _+1, JsonValue.bool b => if b then String.toList "true" else String.toList "false"
  | _+1, JsonValue.num lexeme => lexeme
  | _+1, JsonValue.str s => s
  | fuel+1, JsonValue.arr es => jsJoinComma fuel es
  | _+1, JsonValue.obj _ => String.toList "[object Object]"

def jsJoinComma : Nat → List JsonValue → JsStr
  | 0, _ => []
  | _+1, [] => []
  | fuel+1, [v] => jsJoinElem fuel v
  | fuel+1, v :: vs => jsJoinElem fuel v ++ ',' :: jsJoinComma fuel vs

def jsJoinElem : Nat → JsonValue → JsStr
  | 0, _ => []
  | _+1, JsonValue.null => []
  | fuel+1, v => jsToString (fuel + 1) v

end

/-- The value of a key in a parsed JSON object; as in `JSON.parse`, a later
duplicate key wins. -/
def jsonObjGet (fields : List (JsStr × JsonValue)) (key : JsStr) : Option JsonValue :=
  ((fields.filter (fun p => decide (p.1 = key))).map (fun p => p.2)).getLast?

/-- A property read followed by string coercion: a missing property is
`undefined`, which `indexOf` coerces to the string `undefined`. -/
def jsPropToString (fuel : Nat) : Option JsonValue → JsStr
  | none => String.toList "undefined"
  | some v => jsToString fuel v

/-- The `const \x7b start, end \x7d = marker` destructuring of the loop of
`extractActualResponse`, followed by the string coercion `indexOf` applies:
destructuring `null` throws a `TypeError` (modelled as `none`; the
surrounding `catch` then returns the original response); any other value
destructures, non-objects yielding `undefined` for both fields. -/
def markerStringsOf (fuel : Nat) : JsonValue → Option (JsStr × JsStr)
  | JsonValue.null => none
  | JsonValue.obj fields =>
    some (jsPropToString fuel (jsonObjGet fields (String.toList "start")),
          jsPropToString fuel (jsonObjGet fields (String.toList "end")))
  | _ => some (String.toList "undefined", String.toList "undefined")

/-- Destructure the elements of the parsed marker array in order; a `null`
element throws, discarding the run (`none`). -/
def markersOfElems (fuel : Nat) : List JsonValue → Option (List ReasoningMarker)
  | [] => some []
  | v :: rest =>
    match markerStringsOf fuel v with
    | none => none
    | some (s, e) =>
      match markersOfElems fuel rest with
      | none => none
      | some ms => some (⟨s, e⟩ :: ms)

/-- The `for (const marker of markers)` iteration source: arrays iterate their
elements; a string iterates its characters, each a one-character string that
destructures to `undefined` fields; every other value is not iterable, so the
loop header throws a `TypeError` (modelled as `none`; the surrounding `catch`
returns the original response). -/
def markersOfJson (fuel : Nat) : JsonValue → Option (List ReasoningMarker)
  | JsonValue.arr es => markersOfElems fuel es
  | JsonValue.str s =>
    some (s.map (fun _ => ⟨String.toList "undefined", String.toList "undefined"⟩))
  | _ => none

/-- Model of the marker-configuration step of `extractActualResponse`:
`JSON.parse` the configured string, then set up the marker loop.  `none`
models every exception the `try` block raises before or while destructuring —
a `SyntaxError` from `JSON.parse` (`parseJsonText` returns `none`), a
`TypeError` from iterating a non-iterable value, or a `TypeError` from
destructuring a `null` element; in each case the surrounding `catch` returns
the original response before any output is produced. -/
def parseMarkersJs (s : JsStr) : Option (List ReasoningMarker) :=
  match parseJsonText s with
  | none => none
  | some v => markersOfJson (s.length + 4) v

/-- The fields of the `OLocalLLMSettings` interface (src/main.ts) read by
`extractActualResponse`.  Both are optional in the TypeScript interface, hence
`Option`. -/
structure OLocalLLMSettings where
  extractReasoningResponses : Option Bool
  reasoningMarkers : Option JsStr
deriving DecidableEq, Repr

/-- One iteration of the marker loop of `extractActualResponse`
(src/main.ts lines 2467-2505 and 5877-5915), acting on the current
`extractedResponse`. -/
def applyMarker (er : JsStr) (m : ReasoningMarker) : JsStr :=
  match indexOfFrom er m.start 0 with
  | none => er
  | some si =>
    match indexOfFrom er m.endMark (si + m.start.length) with
    | some ei =>
      let afterContent := jsTrim (er.drop (ei + m.endMark.length))
      if afterContent ≠ [] then afterContent
      else
        let beforeContent := jsTrim (er.take si)
        if beforeContent ≠ [] then beforeContent else er
    | none =>
      let afterContent := jsTrim (er.drop (si + m.start.length))
      let paragraphs := splitOnSub ('\n' :: '\n' :: []) afterContent
      match paragraphs.find? (fun para => decide ((jsTrim para).length > 20)) with
      | some para => jsTrim para
      | none => er

/-- The body of the `try` block of `extractActualResponse` after a successful
`JSON.parse`: the marker loop, the `Answer:`/`Result:`/`Output:` heuristic, and
the artifact cleanup, before the final `|| response` fallback. -/
def extractCore (markers : List ReasoningMarker) (response : JsStr) : JsStr :=
  let afterMarkers := markers.foldl applyMarker response
  let afterAnswer :=
    match findAnswerMatch afterMarkers with
    | some cap =>
      if cap ≠ [] ∧ (jsTrim cap).length > 10 then jsTrim cap else afterMarkers
    | none => afterMarkers
  jsTrim (cleanupArtifacts afterAnswer)

/-- Embedding of `extractActualResponse` (src/main.ts lines 2456-2525, first
copy).  `!settings.extractReasoningResponses` is falsy for `false` and for an
unset field; `settings.reasoningMarkers || "[]"` substitutes `"[]"` for an
unset or empty marker string; every exception of the `try` block — a
`JSON.parse` failure or a `TypeError` while setting up the marker loop
(see `parseMarkersJs`) — is caught and the original response returned; the
final `return extractedResponse || response` falls back to the original
response when extraction yields the empty string. -/
def extractActualResponse (response : JsStr) (settings : OLocalLLMSettings) : JsStr :=
  if settings.extractReasoningResponses ≠ some true then
    response
  else
    match parseMarkersJs (match settings.reasoningMarkers with
                          | none => String.toList "[]"
                          | some s => if s = [] then String.toList "[]" else s) with
    | none => response
    | some markers =>
      if extractCore markers response = [] then response
      else extractCore markers response

/-- Embedding of the second copy of `extractActualResponse`
(src/main.ts lines 5866-5935).  The two copies are byte-identical in the
source (the surrounding halves of the file differ elsewhere), so the two
embeddings share the same body and the same helper models. -/
def extractActualResponse2 (response : JsStr) (settings : OLocalLLMSettings) : JsStr :=
  if settings.extractReasoningResponses ≠ some true then
    response
  else
    match parseMarkersJs (match settings.reasoningMarkers with
                          | none => String.toList "[]"
                          | some s => if s = [] then String.toList "[]" else s) with
    | none => response
    | some markers =>
      if extractCore markers response = [] then response
      else extractCore markers response

/-- A conversation history entry (`ConversationEntry` interface of
src/main.ts). -/
structure ConversationEntry where
  prompt : JsStr
  response : JsStr
deriving DecidableEq, Repr

/-- Embedding of `updateConversationHistory` (src/main.ts lines 2820-2827 and
6230-6237; the two copies are byte-identical): push the new entry, then remove
the oldest entry (`shift`) when the length exceeds the bound.  The in-place
array mutation of the source is modelled by returning the new history. -/
def updateConversationHistory (prompt response : JsStr)
    (conversationHistory : List ConversationEntry) (maxConvHistoryLength : Nat) :
    List ConversationEntry :=
  let h := conversationHistory ++ [⟨prompt, response⟩]
  if h.length > maxConvHistoryLength then h.drop 1 else h

/-- The externally observable effects of the streaming loop of `processText`
(src/main.ts): editor writes via `modifySelectedText`, the reader
cancellation, and the notices / history update. -/
inductive StreamAction where
  | writeText (s : JsStr)
  | cancelReader
  | noticeStopped
  | noticeComplete
  | historyUpdate
deriving DecidableEq, Repr

/-- The result of one `reader.read()`: a decoded text chunk, or the end of the
stream. -/
inductive ReadResult where
  | chunk (text : JsStr)
  | done
deriving DecidableEq, Repr

/-- Model of `line.replace(/^data:\s*/, "")`: remove a leading `data:` and the
whitespace after it, if present. -/
def stripDataPrefix (line : JsStr) : JsStr :=
  if (String.toList "data:").isPrefixOf line then (line.drop 5).dropWhile isJsWs else line

/-- Processing of one SSE line inside the streaming loop (src/main.ts lines
2371-2394 and 5773-5796): blank lines are skipped, `[DONE]` is skipped, and an
otherwise parsed line with truthy `data.choices[0].delta.content` writes that
content to the editor.  `parseDelta` models `JSON.parse` plus the
`choices[0].delta.content` access; `none` covers the per-line `catch` (the
loop continues), and empty content is falsy and writes nothing. -/
def processLine (parseDelta : JsStr → Option JsStr) (line : JsStr) : List StreamAction :=
  if jsTrim line = [] then []
  else if stripDataPrefix line = String.toList "[DONE]" then []
  else
    match parseDelta (stripDataPrefix line) with
    | some w => if w = [] then [] else [StreamAction.writeText w]
    | none => []

/-- Embedding of the streaming loop of `processText` (the recursive
`readChunk` of src/main.ts lines 2349-2397 and the `while (true)` loop of
lines 5750-5797; both poll `plugin.isKillSwitchActive` first, then read, with
identical control flow).  The input models the sequence of reads the stream
would deliver, each paired with a flag saying whether the consumer set the
global kill switch before that iteration's poll; once set the flag stays set
until observed.  The empty input models a stream that stalls without
delivering a read. -/
def streamLoop (parseDelta : JsStr → Option JsStr) (responseFormatting : Bool)
    (responseFormatAppend : JsStr) :
    Bool → List (Bool × ReadResult) → List StreamAction
  | _, [] => []
  | killFlag, (setNow, r) :: rest =>
    if killFlag || setNow then [StreamAction.cancelReader, StreamAction.noticeStopped]
    else
      match r with
      | ReadResult.done =>
        [StreamAction.noticeComplete, StreamAction.historyUpdate] ++
          (if responseFormatting then [StreamAction.writeText responseFormatAppend] else [])
      | ReadResult.chunk t =>
        ((splitOnSub ('\n' :: []) t).map (processLine parseDelta)).flatten ++
          streamLoop parseDelta responseFormatting responseFormatAppend false rest

/-- Whether some iteration of the streaming loop observes the kill switch set
at its poll. -/
def observesKill : Bool → List (Bool × ReadResult) → Bool
  | _, [] => false
  | killFlag, (setNow, r) :: rest =>
    killFlag || setNow ||
      (match r with
       | ReadResult.done => false
       | ReadResult.chunk _ => observesKill false rest)

/-- Modelled from the spec: a paragraph/sentence boundary character for the
Chunker (spec §4.2; the Chunker lives in `src/rag`, which is not part of the
repository snapshot). -/
def isBoundaryChar (c : Char) : Bool := c = '\n' || c = '.'

/-- Modelled from the spec: the position (number of characters) of the last
paragraph/sentence boundary within the first `limit` characters, falling back
to a hard cut at `limit` when no boundary exists (spec §4.2). -/
def boundaryCut (text : List Char) (limit : Nat) : Nat :=
  (((text.take limit).enum.filter (fun p => isBoundaryChar p.2)).map
    (fun p => p.1 + 1)).getLastD limit

/-- Modelled from the spec: the cut position for the next chunk; a boundary
cut within the target size where possible, clamped to consume at least one
character beyond the overlap so that chunking always makes progress. -/
def cutPoint (text : List Char) (targetSize overlap : Nat) : Nat :=
  max (overlap + 1) (boundaryCut text targetSize)

/-- Modelled from the spec: the recursion of `Chunker.split` (spec §4.2).
Text no longer than the target size becomes a single chunk; otherwise the text
up to the cut becomes a chunk and splitting continues from `cut - overlap`, so
that the tail `overlap` characters of each chunk reappear at the head of the
next one.  The fuel bounds the recursion depth; each step consumes at least
one character, so a fuel of the text's length is always sufficient. -/
def splitFuel (targetSize overlap : Nat) : Nat → List Char → List (List Char)
  | 0, _ => []
  | fuel+1, text =>
    if text = [] then []
    else if text.length ≤ targetSize then [text]
    else
      let cut := cutPoint text targetSize overlap
      text.take cut :: splitFuel targetSize overlap fuel (text.drop (cut - overlap))

/-- Modelled from the spec: `Chunker.split(text, targetSize, overlap)`
(spec §4.2), on preprocessed text.  Empty input produces zero chunks; input no
longer than `targetSize` produces exactly one chunk with no overlap
applied. -/
def chunkSplit (text : List Char) (targetSize overlap : Nat) : List (List Char) :=
  splitFuel targetSize overlap text.length text

/-- Concatenation of a chunk sequence with the declared overlap length removed
from the head of each chunk after the first (spec §8, first testable
property). -/
def reconstructChunks (overlap : Nat) : List (List Char) → List Char
  | [] => []
  | c :: cs => c ++ (cs.map (List.drop overlap)).flatten

/-- Modelled from the spec: one chunk record of the Vector Store together with
its embedding vector (spec §3 and §6; the Vector Store lives in `src/rag`,
which is not part of the repository snapshot).  The opaque chunk id is
omitted; vector components are exact rationals standing for the source's
floating-point numbers. -/
structure StoredChunk where
  text : String
  sourcePath : String
  ordinal : Nat
  createdAt : Nat
  contentHash : Nat
  vector : List ℚ
deriving DecidableEq, Repr

/-- Dot product of two vectors (missing components count as zero). -/
def dotQ : List ℚ → List ℚ → ℚ
  | [], _ => 0
  | _, [] => 0
  | a :: as, b :: bs => a * b + dotQ as bs

/-- Squared Euclidean norm of a vector. -/
def normSq (v : List ℚ) : ℚ := dotQ v v

/-- Modelled from the spec: the ranking score of a stored vector `v` against
the query `q`.  Cosine similarity itself (spec §4.3) is irrational; `scoreKey`
is the sign-preserving square `t * abs t` of the cosine scaled by the constant
`normSq q`, a strictly monotone image, so ranking by `scoreKey` descending is
exactly ranking by cosine similarity descending
(`scoreKey_le_iff_cosineSim_le` below makes this precise). -/
def scoreKey (q v : List ℚ) : ℚ :=
  if dotQ q v < 0 then -(dotQ q v * dotQ q v / normSq v)
  else dotQ q v * dotQ q v / normSq v

/-- Modelled from the spec: the result ordering of `similaritySearch`
(spec §4.3): higher cosine similarity first, ties broken by most-recent
`createdAt`. -/
def chunkRank (q : List ℚ) (a b : StoredChunk) : Prop :=
  scoreKey q b.vector < scoreKey q a.vector ∨
    (scoreKey q a.vector = scoreKey q b.vector ∧ b.createdAt ≤ a.createdAt)

instance (q : List ℚ) : DecidableRel (chunkRank q) := fun a b => by
  unfold chunkRank; infer_instance

instance (q : List ℚ) : IsTotal StoredChunk (chunkRank q) where
  total a b := by
    unfold chunkRank
    rcases lt_trichotomy (scoreKey q a.vector) (scoreKey q b.vector) with h | h | h
    · exact Or.inr (Or.inl h)
    · rcases Nat.le_total b.createdAt a.createdAt with hc | hc
      · exact Or.inl (Or.inr ⟨h, hc⟩)
      · exact Or.inr (Or.inr ⟨h.symm, hc⟩)
    · exact Or.inl (Or.inl h)

instance (q : List ℚ) : IsTrans StoredChunk (chunkRank q) where
  trans a b c hab hbc := by
    unfold chunkRank at *
    rcases hab with h1 | ⟨h1, h1c⟩ <;> rcases hbc with h2 | ⟨h2, h2c⟩
    · exact Or.inl (h2.trans h1)
    · exact Or.inl (h2 ▸ h1)
    · exact Or.inl (h1 ▸ h2)
    · exact Or.inr ⟨h2 ▸ h1, le_trans h2c h1c⟩

/-- Modelled from the spec: the chunks of the store ranked for a query, best
first (cosine similarity descending, ties broken by most-recent
`createdAt`). -/
def rankedChunks (store : List StoredChunk) (q : List ℚ) : List StoredChunk :=
  store.insertionSort (chunkRank q)

/-- Modelled from the spec: `similaritySearch(queryVector, k)` (spec §4.3):
the `k` best-ranked `(chunkText, sourcePath, score)` tuples, all of them when
the store holds fewer than `k` chunks. -/
def similaritySearch (store : List StoredChunk) (q : List ℚ) (k : Nat) :
    List (String × String × ℚ) :=
  ((rankedChunks store q).take k).map (fun c => (c.text, c.sourcePath, scoreKey q c.vector))

/-- Cosine similarity as real-valued mathematics (spec §4.3:
`dot(a,b) / (|a| * |b|)`), used to relate `scoreKey` to the spec's
ordering. -/
noncomputable def cosineSim (a b : List ℚ) : ℝ :=
  ((dotQ a b : ℚ) : ℝ) / (Real.sqrt ((normSq a : ℚ) : ℝ) * Real.sqrt ((normSq b : ℚ) : ℝ))

/-- Modelled from the spec: the in-memory RAG state rebuilt from the
Persistence Layer: the index manifest (file path to content hash) and the
Vector Store (spec §3; `src/rag` is not part of the repository snapshot). -/
structure RAGState where
  manifest : List (String × Nat)
  store : List StoredChunk
deriving DecidableEq, Repr

/-- The content hash recorded in the manifest for a path. -/
def lookupHash : List (String × Nat) → String → Option Nat
  | [], _ => none
  | e :: rest, p => if e.1 = p then some e.2 else lookupHash rest p

/-- Modelled from the spec: `removeBySourcePath(path)` (spec §4.3): delete all
chunks associated with a file path. -/
def removeBySourcePath (st : RAGState) (path : String) : RAGState :=
  { st with store := st.store.filter (fun c => decide (c.sourcePath ≠ path)) }

/-- Modelled from the spec: the chunk records produced for one file: chunk the
content, embed each chunk, and attach path, ordinal and content hash
(spec §4.5). -/
def newChunksFor (embed : String → List ℚ) (targetSize overlap : Nat)
    (hashFn : String → Nat) (path content : String) : List StoredChunk :=
  (((chunkSplit content.toList targetSize overlap).map (fun cs => String.mk cs)).enum).map
    (fun p => { text := p.2, sourcePath := path, ordinal := p.1, createdAt := 0,
                contentHash := hashFn content, vector := embed p.2 })

/-- Modelled from the spec: the per-file embedding step of the Orchestrator
(spec §4.5): replace the previous chunks of the path (`removeBySourcePath`,
then append the new records) and record the file's content hash in the
manifest. -/
def indexFile (embed : String → List ℚ) (targetSize overlap : Nat)
    (hashFn : String → Nat) (st : RAGState) (path content : String) : RAGState :=
  { manifest := st.manifest.filter (fun e => decide (e.1 ≠ path)) ++ [(path, hashFn content)],
    store := (removeBySourcePath st path).store ++
      newChunksFor embed targetSize overlap hashFn path content }

/-- Modelled from the spec: the deletion part of the Diffing phase (spec
§4.5): files present in the manifest but absent from the corpus are removed
from the manifest and the Vector Store. -/
def pruneDeleted (st : RAGState) (paths : List String) : RAGState :=
  { manifest := st.manifest.filter (fun e => decide (e.1 ∈ paths)),
    store := st.store.filter (fun c => decide (c.sourcePath ∈ paths)) }

/-- Modelled from the spec: the Diffing phase (spec §4.5): the files whose
current content hash differs from the manifest entry (or that have no entry)
are queued for re-embedding; unchanged files are skipped entirely. -/
def filesToIndex (hashFn : String → Nat) (st : RAGState)
    (corpus : List (String × String)) : List (String × String) :=
  corpus.filter (fun pc => decide (lookupHash st.manifest pc.1 ≠ some (hashFn pc.2)))

/-- Modelled from the spec: `indexAll` (spec §4.5 and §6): prune deleted
files, then run the chunk/embed/store pipeline over exactly the queued
files. -/
def indexAll (embed : String → List ℚ) (targetSize overlap : Nat)
    (hashFn : String → Nat) (corpus : List (String × String)) (st : RAGState) : RAGState :=
  (filesToIndex hashFn (pruneDeleted st (corpus.map Prod.fst)) corpus).foldl
    (fun s pc => indexFile embed targetSize overlap hashFn s pc.1 pc.2)
    (pruneDeleted st (corpus.map Prod.fst))

/-- Modelled from the spec: a persisted snapshot: schema version, manifest,
and chunk+vector records (spec §4.4 and §6). -/
structure Snapshot where
  schemaVersion : Nat
  manifest : List (String × Nat)
  chunks : List StoredChunk
deriving DecidableEq, Repr

/-- Modelled from the spec: the result of the Persistence Layer's `load()`
(spec §4.4). -/
inductive LoadResult where
  | found (snap : Snapshot)
  | notFound
deriving DecidableEq, Repr

/-- Modelled from the spec: `load()` (spec §4.4).  `raw` is the snapshot
file's content (`none` when the file does not exist); `parseSnapshot` models
the JSON/structural parse, its `error` result modelling the exception a parse
of corrupt or truncated content raises.  Parse failure and schema-version
mismatch are both treated as `NotFound` rather than propagated. -/
def loadSnapshot (parseSnapshot : String → Except String Snapshot)
    (expectedVersion : Nat) (raw : Option String) : LoadResult :=
  match raw with
  | none => LoadResult.notFound
  | some content =>
    match parseSnapshot content with
    | Except.error _ => LoadResult.notFound
    | Except.ok snap =>
      if snap.schemaVersion = expectedVersion then LoadResult.found snap
      else LoadResult.notFound

/-- The empty RAG state. -/
def emptyRAGState : RAGState := { manifest := [], store := [] }

/-- Modelled from the spec: startup builds the in-memory state from `load()`;
`NotFound` yields an empty store and startup proceeds (spec §3 and §4.4). -/
def startupState (r : LoadResult) : RAGState :=
  match r with
  | LoadResult.found snap => { manifest := snap.manifest, store := snap.chunks }
  | LoadResult.notFound => emptyRAGState

theorem processLine_writeText (parseDelta : JsStr → Option JsStr) (line : JsStr)
    (a : StreamAction) (ha : a ∈ processLine parseDelta line) :
    ∃ w, a = StreamAction.writeText w := by
  unfold processLine at ha
  split at ha
  · simp at ha
  · split at ha
    · simp at ha
    · split at ha
      · split at ha
        · simp at ha
        · simp at ha
          exact ⟨_, ha⟩
      · simp at ha

/-- C1: In the streaming mode of `processText`, the kill switch is polled
before each read; in any run in which some iteration observes the flag set,
the trace ends with the reader cancellation and the stop notice, so
`modifySelectedText` is not called again after that iteration (everything
before the cancellation is ordinary chunk output). -/
theorem streamLoop_kill_switch_stops_output
    (parseDelta : JsStr → Option JsStr) (responseFormatting : Bool)
    (responseFormatAppend : JsStr) (killFlag : Bool) (evs : List (Bool × ReadResult))
    (h : observesKill killFlag evs = true) :
    ∃ pre, streamLoop parseDelta responseFormatting responseFormatAppend killFlag evs =
        pre ++ [StreamAction.cancelReader, StreamAction.noticeStopped] ∧
      ∀ a ∈ pre, ∃ w, a = StreamAction.writeText w := by
  induction evs generalizing killFlag with
  | nil => simp [observesKill] at h
  | cons ev rest ih =>
    obtain ⟨setNow, r⟩ := ev
    by_cases hk : (killFlag || setNow) = true
    · refine ⟨[], ?_, by simp⟩
      simp [streamLoop, hk]
    · have hk' : (killFlag || setNow) = false := by simpa using hk
      cases r with
      | done =>
        exfalso
        simp [observesKill, hk'] at h
      | chunk t =>
        have ht : observesKill false rest = true := by
          simpa [observesKill, hk'] using h
        obtain ⟨pre, hpre, hw⟩ := ih false ht
        refine ⟨((splitOnSub ('\n' :: []) t).map (processLine parseDelta)).flatten ++ pre,
          ?_, ?_⟩
        · simp [streamLoop, hk', hpre]
        · intro a ha
          rcases List.mem_append.mp ha with ha | ha
          · obtain ⟨l, hl, hal⟩ := List.mem_flatten.mp ha
            obtain ⟨line, hline, rfl⟩ := List.mem_map.mp hl
            exact processLine_writeText parseDelta line a hal
          · exact hw a ha

theorem streamLoop_kill_switch_stops_output_witness :
    observesKill false [(true, ReadResult.done)] = true ∧
    ∃ pre, streamLoop (fun _ => none) true [] false [(true, ReadResult.done)] =
        pre ++ [StreamAction.cancelReader, StreamAction.noticeStopped] ∧
      ∀ a ∈ pre, ∃ w, a = StreamAction.writeText w :=
  ⟨by decide, streamLoop_kill_switch_stops_output (fun _ => none) true [] false
    [(true, ReadResult.done)] (by decide)⟩

/-- C2: when `extractReasoningResponses` is `false` or unset, the
reasoning-extraction post-processing is the identity. -/
theorem extractActualResponse_disabled_id (response : JsStr) (settings : OLocalLLMSettings)
    (h : settings.extractReasoningResponses = some false ∨
      settings.extractReasoningResponses = none) :
    extractActualResponse response settings = response := by
  unfold extractActualResponse
  rcases h with h | h <;> simp [h]

theorem extractActualResponse_disabled_id_witness :
    ((⟨some false, none⟩ : OLocalLLMSettings).extractReasoningResponses = some false ∨
      (⟨some false, none⟩ : OLocalLLMSettings).extractReasoningResponses = none) ∧
    extractActualResponse (String.toList "hello") ⟨some false, none⟩ = String.toList "hello" :=
  ⟨Or.inl rfl, extractActualResponse_disabled_id (String.toList "hello") ⟨some false, none⟩
    (Or.inl rfl)⟩

/-- The settings of the C3 counterexample: extraction enabled with an empty
marker string.  The empty string is not parseable as JSON (`JSON.parse("")`
throws), but the code substitutes `"[]"` for it before parsing and the
heuristics still transform the response. -/
def emptyMarkersSettings : OLocalLLMSettings := ⟨some true, some []⟩

/-- A response the answer-extraction heuristic rewrites. -/
def answerResponse : JsStr := String.toList "Answer: 12345678901"

/-- C3 counterexample: a settings value whose `reasoningMarkers` string is not
parseable as JSON (the empty string) under which `extractActualResponse` does
not return the response unchanged: the `||`-substituted `"[]"` parses, and the
`Answer:` heuristic rewrites the response. -/
theorem extractActualResponse_empty_markers_cex :
    parseJsonText [] = none ∧
    emptyMarkersSettings.reasoningMarkers = some [] ∧
    emptyMarkersSettings.extractReasoningResponses = some true ∧
    extractActualResponse answerResponse emptyMarkersSettings ≠ answerResponse :=
  ⟨rfl, rfl, rfl, by decide⟩

/-- C3 as amended: when the configured marker string is non-empty and not
parseable as JSON (`parseJsonText` models the acceptance of `JSON.parse`),
the `JSON.parse` failure is caught and the response is returned unchanged; no
error escapes.  (When the marker string is absent or empty, the code
substitutes the parseable default `"[]"`, and the answer-extraction heuristics
may still transform the response.) -/
theorem extractActualResponse_unparseable_markers_id (response : JsStr)
    (settings : OLocalLLMSettings) (s : JsStr)
    (hm : settings.reasoningMarkers = some s) (hne : s ≠ [])
    (hp : parseJsonText s = none) :
    extractActualResponse response settings = response := by
  unfold extractActualResponse
  split
  · rfl
  · rw [hm]
    simp only [if_neg hne]
    unfold parseMarkersJs
    rw [hp]

def notJsonSettings : OLocalLLMSettings := ⟨some true, some (String.toList "not json")⟩

theorem extractActualResponse_unparseable_markers_id_witness :
    notJsonSettings.reasoningMarkers = some (String.toList "not json") ∧
    String.toList "not json" ≠ ([] : JsStr) ∧
    parseJsonText (String.toList "not json") = none ∧
    extractActualResponse answerResponse notJsonSettings = answerResponse :=
  ⟨rfl, by decide, rfl,
    extractActualResponse_unparseable_markers_id answerResponse notJsonSettings
      (String.toList "not json") rfl (by decide) rfl⟩

/-- C7: a snapshot whose content fails the JSON/structural parse makes
`load()` return `NotFound` (no exception propagates: `loadSnapshot` is total),
and startup proceeds with the empty store. -/
theorem loadSnapshot_parse_failure_notFound
    (parseSnapshot : String → Except String Snapshot) (expectedVersion : Nat)
    (content : String) (err : String)
    (hp : parseSnapshot content = Except.error err) :
    loadSnapshot parseSnapshot expectedVersion (some content) = LoadResult.notFound ∧
    startupState (loadSnapshot parseSnapshot expectedVersion (some content)) =
      emptyRAGState := by
  simp [loadSnapshot, hp, startupState]

/-- A snapshot file truncated mid-write. -/
def truncatedSnapshotContent : String := "\x7b\x22schemaVersion\x22: 1, \x22chunks\x22: ["

/-- A parse that fails on every input, as `JSON.parse` does on the truncated
content. -/
def failingParse : String → Except String Snapshot :=
  fun _ => Except.error "Unexpected end of JSON input"

theorem loadSnapshot_parse_failure_notFound_witness :
    failingParse truncatedSnapshotContent = Except.error "Unexpected end of JSON input" ∧
    loadSnapshot failingParse 1 (some truncatedSnapshotContent) = LoadResult.notFound ∧
    startupState (loadSnapshot failingParse 1 (some truncatedSnapshotContent)) =
      emptyRAGState :=
  ⟨rfl, loadSnapshot_parse_failure_notFound failingParse 1 truncatedSnapshotContent
    "Unexpected end of JSON input" rfl⟩

/-- C8: the two copies of `extractActualResponse` in the source (lines
2456-2525 and lines 5866-5935) are extensionally equal; they are in fact
byte-identical, so the equality holds definitionally. -/
theorem extractActualResponse_copies_eq :
    ∀ (response : JsStr) (settings : OLocalLLMSettings),
      extractActualResponse response settings = extractActualResponse2 response settings :=
  fun _ _ => rfl

/-- The entry used in the C9 counterexample. -/
def cexEntry : ConversationEntry := ⟨String.toList "hi", String.toList "there"⟩

/-- C9 counterexample: with `maxConvHistoryLength = 0` (the plugin's default
`maxConvHistory`) and an empty history (length ≤ 0), the pushed entry is
immediately shifted out again, so the new entry is not the last element after
the call. -/
theorem updateConversationHistory_zero_bound_cex :
    ([] : List ConversationEntry).length ≤ 0 ∧
    (updateConversationHistory cexEntry.prompt cexEntry.response [] 0).getLast? ≠
      some cexEntry := by
  exact ⟨by decide, by decide⟩

/-- C9 as amended: for a positive bound `maxConvHistoryLength ≥ 1`, pushing
onto a history within the bound leaves the new entry last and the length
within the bound, the oldest entry being removed exactly when the bound would
be exceeded. -/
theorem updateConversationHistory_bound_invariant (prompt response : JsStr)
    (hist : List ConversationEntry) (maxLen : Nat)
    (hmax : 1 ≤ maxLen) (hlen : hist.length ≤ maxLen) :
    (updateConversationHistory prompt response hist maxLen).getLast? =
      some ⟨prompt, response⟩ ∧
    (updateConversationHistory prompt response hist maxLen).length ≤ maxLen ∧
    (hist.length < maxLen →
      updateConversationHistory prompt response hist maxLen =
        hist ++ [⟨prompt, response⟩]) ∧
    (hist.length = maxLen →
      updateConversationHistory prompt response hist maxLen =
        hist.drop 1 ++ [⟨prompt, response⟩]) := by
  unfold updateConversationHistory
  by_cases hc : hist.length + 1 > maxLen
  · have heq : hist.length = maxLen := le_antisymm hlen (by omega)
    cases hist with
    | nil =>
      exfalso
      simp only [List.length_nil] at heq
      omega
    | cons a t =>
      simp only [List.length_cons] at heq
      have hif : ((a :: t) ++ [⟨prompt, response⟩] :
          List ConversationEntry).length > maxLen := by
        simp only [List.length_append, List.length_cons, List.length_nil]
        omega
      rw [if_pos hif]
      have hdrop : (((a :: t) ++ [⟨prompt, response⟩] :
          List ConversationEntry)).drop 1 = t ++ [⟨prompt, response⟩] := rfl
      rw [hdrop]
      refine ⟨List.getLast?_concat _, ?_, ?_, fun _ => rfl⟩
      · simp only [List.length_append, List.length_nil, List.length_cons]
        omega
      · intro hlt
        exfalso
        simp only [List.length_cons] at hlt
        omega
  · have hif : ¬ ((hist ++ [⟨prompt, response⟩] :
        List ConversationEntry).length > maxLen) := by
      simp only [List.length_append, List.length_cons, List.length_nil]
      omega
    rw [if_neg hif]
    refine ⟨List.getLast?_concat _, ?_, fun _ => rfl, ?_⟩
    · simp only [List.length_append, List.length_cons, List.length_nil]
      omega
    · intro heq
      exfalso
      omega

theorem updateConversationHistory_bound_invariant_witness :
    1 ≤ 1 ∧ ([] : List ConversationEntry).length ≤ 1 ∧
    ((updateConversationHistory cexEntry.prompt cexEntry.response [] 1).getLast? =
      some ⟨cexEntry.prompt, cexEntry.response⟩ ∧
    (updateConversationHistory cexEntry.prompt cexEntry.response [] 1).length ≤ 1 ∧
    (([] : List ConversationEntry).length < 1 →
      updateConversationHistory cexEntry.prompt cexEntry.response [] 1 =
        [] ++ [⟨cexEntry.prompt, cexEntry.response⟩]) ∧
    (([] : List ConversationEntry).length = 1 →
      updateConversationHistory cexEntry.prompt cexEntry.response [] 1 =
        ([] : List ConversationEntry).drop 1 ++ [⟨cexEntry.prompt, cexEntry.response⟩])) :=
  ⟨le_refl 1, by decide,
    updateConversationHistory_bound_invariant cexEntry.prompt cexEntry.response [] 1
      (by decide) (by decide)⟩

/-- C10: on a non-empty response the extraction never returns the empty
string: every path either returns the original response or a string the final
`|| response` fallback has checked to be non-empty. -/
theorem extractActualResponse_preserves_nonempty (response : JsStr)
    (settings : OLocalLLMSettings) (h : response ≠ []) :
    extractActualResponse response settings ≠ [] := by
  unfold extractActualResponse
  split
  · exact h
  · split
    · exact h
    · split
      · exact h
      · next hne => exact hne

theorem extractActualResponse_preserves_nonempty_witness :
    answerResponse ≠ ([] : JsStr) ∧
    extractActualResponse answerResponse emptyMarkersSettings ≠ [] :=
  ⟨by decide, extractActualResponse_preserves_nonempty answerResponse emptyMarkersSettings
    (by decide)⟩

theorem cutPoint_ge (text : List Char) (targetSize overlap : Nat) :
    overlap + 1 ≤ cutPoint text targetSize overlap :=
  le_max_left _ _

theorem reconstruct_splitFuel (targetSize overlap : Nat) :
    ∀ (fuel : Nat) (text : List Char), text.length ≤ fuel →
      reconstructChunks overlap (splitFuel targetSize overlap fuel text) = text := by
  intro fuel
  induction fuel with
  | zero =>
    intro text hlen
    have h0 : text = [] := List.eq_nil_of_length_eq_zero (Nat.le_zero.mp hlen)
    subst h0
    rfl
  | succ fuel ih =>
    intro text hlen
    by_cases h0 : text = []
    · subst h0
      rfl
    · by_cases h1 : text.length ≤ targetSize
      · simp [splitFuel, h0, h1, reconstructChunks]
      · have hov : overlap + 1 ≤ cutPoint text targetSize overlap :=
          cutPoint_ge text targetSize overlap
        have htlen : 1 ≤ text.length := List.length_pos.mpr h0
        have hsplit : splitFuel targetSize overlap (fuel + 1) text =
            text.take (cutPoint text targetSize overlap) ::
              splitFuel targetSize overlap fuel
                (text.drop (cutPoint text targetSize overlap - overlap)) := by
          simp [splitFuel, h0, h1]
        have hslen :
            (text.drop (cutPoint text targetSize overlap - overlap)).length ≤ fuel := by
          rw [List.length_drop]
          omega
        have ihs := ih (text.drop (cutPoint text targetSize overlap - overlap)) hslen
        cases hsp : splitFuel targetSize overlap fuel
            (text.drop (cutPoint text targetSize overlap - overlap)) with
        | nil =>
          rw [hsp] at ihs
          have hnil : (text.drop (cutPoint text targetSize overlap - overlap)).length = 0 := by
            rw [← ihs]
            rfl
          rw [List.length_drop] at hnil
          rw [hsplit, hsp]
          show text.take (cutPoint text targetSize overlap) ++ [] = text
          rw [List.append_nil]
          exact List.take_of_length_le (by omega)
        | cons r rs =>
          rw [hsp] at ihs
          have ihs' : r ++ (rs.map (List.drop overlap)).flatten =
              text.drop (cutPoint text targetSize overlap - overlap) := ihs
          rw [hsplit, hsp]
          show text.take (cutPoint text targetSize overlap) ++
              (r.drop overlap ++ (rs.map (List.drop overlap)).flatten) = text
          by_cases hro : overlap ≤ r.length
          · have hrpre : r =
                (text.drop (cutPoint text targetSize overlap - overlap)).take r.length := by
              rw [← ihs', List.take_left]
            have hJdrop : (rs.map (List.drop overlap)).flatten =
                (text.drop (cutPoint text targetSize overlap - overlap)).drop r.length := by
              rw [← ihs', List.drop_left]
            have h2 : (rs.map (List.drop overlap)).flatten =
                List.drop (r.length - overlap)
                  (List.drop (cutPoint text targetSize overlap) text) := by
              rw [hJdrop, List.drop_drop, List.drop_drop]
              congr 1
              omega
            have h3 : r.drop overlap =
                List.take (r.length - overlap)
                  (List.drop (cutPoint text targetSize overlap) text) := by
              conv_lhs => rw [hrpre]
              rw [List.drop_take, List.drop_drop]
              congr 2
              omega
            rw [h2, h3, List.take_append_drop, List.take_append_drop]
          · have hrs : r.length =
                (text.drop (cutPoint text targetSize overlap - overlap)).length := by
              cases fuel with
              | zero => simp [splitFuel] at hsp
              | succ fuel2 =>
                by_cases hse : text.drop (cutPoint text targetSize overlap - overlap) = []
                · rw [hse] at hsp
                  simp [splitFuel] at hsp
                · by_cases hsl :
                      (text.drop (cutPoint text targetSize overlap - overlap)).length ≤
                        targetSize
                  · simp only [splitFuel, if_neg hse, if_pos hsl] at hsp
                    injection hsp with hr hrs2
                    rw [← hr]
                  · simp only [splitFuel, if_neg hse, if_neg hsl] at hsp
                    injection hsp with hr hrs2
                    have hc2 := cutPoint_ge
                      (text.drop (cutPoint text targetSize overlap - overlap))
                      targetSize overlap
                    have hlen2 : r.length =
                        (cutPoint (text.drop (cutPoint text targetSize overlap - overlap))
                            targetSize overlap) ⊓
                          (text.drop (cutPoint text targetSize overlap - overlap)).length := by
                      rw [← hr, List.length_take]
                    omega
            have hlen3 := congrArg List.length ihs'
            rw [List.length_append] at hlen3
            have hJnil : (rs.map (List.drop overlap)).flatten = [] :=
              List.eq_nil_of_length_eq_zero (by omega)
            have hrnil : r.drop overlap = [] := List.drop_eq_nil_of_le (by omega)
            rw [hJnil, hrnil, List.append_nil, List.append_nil]
            have hsl2 : (text.drop (cutPoint text targetSize overlap - overlap)).length =
                text.length - (cutPoint text targetSize overlap - overlap) :=
              List.length_drop _ _
            exact List.take_of_length_le (by omega)

/-- C5: for every chunk sequence produced by the Chunker's split operation,
concatenating the chunk texts while removing the declared overlap length from
the head of each chunk after the first reconstructs the original preprocessed
input text exactly. -/
theorem chunkSplit_reconstructs (text : List Char) (targetSize overlap : Nat) :
    reconstructChunks overlap (chunkSplit text targetSize overlap) = text :=
  reconstruct_splitFuel targetSize overlap text.length text (le_refl _)

theorem mulAbs_strictMono : StrictMono (fun t : ℝ => t * |t|) := by
  intro a b hab
  simp only
  rcases le_or_lt 0 a with ha | ha
  · have hb : 0 < b := lt_of_le_of_lt ha hab
    rw [abs_of_nonneg ha, abs_of_pos hb]
    exact mul_self_lt_mul_self ha hab
  · rcases le_or_lt 0 b with hb | hb
    · have h1 : a * |a| < 0 := by
        rw [abs_of_neg ha]
        exact mul_neg_of_neg_of_pos ha (neg_pos.mpr ha)
      have h2 : 0 ≤ b * |b| := mul_nonneg hb (abs_nonneg b)
      linarith
    · rw [abs_of_neg ha, abs_of_neg hb]
      nlinarith

theorem mulAbs_div (d s : ℝ) (hs : 0 < s) : (d / s) * |d / s| = d * |d| / (s * s) := by
  rw [abs_div, abs_of_pos hs]
  field_simp

theorem cosineSim_mulAbs (q v : List ℚ) (hq : 0 < normSq q) (hv : 0 < normSq v) :
    cosineSim q v * |cosineSim q v| = ((scoreKey q v : ℚ) : ℝ) / ((normSq q : ℚ) : ℝ) := by
  have hqR : (0 : ℝ) < ((normSq q : ℚ) : ℝ) := by exact_mod_cast hq
  have hvR : (0 : ℝ) < ((normSq v : ℚ) : ℝ) := by exact_mod_cast hv
  have hsq := Real.sqrt_pos.mpr hqR
  have hsv := Real.sqrt_pos.mpr hvR
  have hs : (0 : ℝ) < Real.sqrt ((normSq q : ℚ) : ℝ) * Real.sqrt ((normSq v : ℚ) : ℝ) :=
    mul_pos hsq hsv
  have hss : Real.sqrt ((normSq q : ℚ) : ℝ) * Real.sqrt ((normSq v : ℚ) : ℝ) *
      (Real.sqrt ((normSq q : ℚ) : ℝ) * Real.sqrt ((normSq v : ℚ) : ℝ)) =
      ((normSq q : ℚ) : ℝ) * ((normSq v : ℚ) : ℝ) := by
    rw [mul_mul_mul_comm, Real.mul_self_sqrt hqR.le, Real.mul_self_sqrt hvR.le]
  unfold cosineSim
  rw [mulAbs_div _ _ hs, hss]
  unfold scoreKey
  by_cases hd : dotQ q v < 0
  · rw [if_pos hd]
    have hdR : ((dotQ q v : ℚ) : ℝ) < 0 := by exact_mod_cast hd
    rw [abs_of_neg hdR]
    push_cast
    field_simp
    exact Or.inl (by ring)
  · rw [if_neg hd]
    have hdR : (0 : ℝ) ≤ ((dotQ q v : ℚ) : ℝ) := by
      exact_mod_cast not_lt.mp hd
    rw [abs_of_nonneg hdR]
    push_cast
    field_simp
    exact Or.inl (by ring)

theorem scoreKey_le_iff_cosineSim_le (q a b : List ℚ)
    (hq : 0 < normSq q) (ha : 0 < normSq a) (hb : 0 < normSq b) :
    cosineSim q a ≤ cosineSim q b ↔ scoreKey q a ≤ scoreKey q b := by
  have hqR : (0 : ℝ) < ((normSq q : ℚ) : ℝ) := by exact_mod_cast hq
  have hiff : cosineSim q a ≤ cosineSim q b ↔
      cosineSim q a * |cosineSim q a| ≤ cosineSim q b * |cosineSim q b| := by
    constructor
    · intro h
      rcases eq_or_lt_of_le h with he | hl
      · rw [he]
      · exact le_of_lt (mulAbs_strictMono hl)
    · intro h
      by_contra hlt
      push_neg at hlt
      exact absurd h (not_le.mpr (mulAbs_strictMono hlt))
  rw [hiff, cosineSim_mulAbs q a hq ha, cosineSim_mulAbs q b hq hb,
    div_le_div_iff_of_pos_right hqR]
  exact_mod_cast Iff.rfl

/-- C4: for every store and every `k ≥ 1`, `similaritySearch` returns at most
`k` results; the underlying ranking is a permutation of the store sorted by
`chunkRank` (score descending with ties broken by most-recent `createdAt`);
the returned scores are non-increasing; a store with at most `k` chunks is
returned whole; and ordering by `scoreKey` coincides with ordering by real
cosine similarity on vectors of positive squared norm. -/
theorem similaritySearch_spec (store : List StoredChunk) (q : List ℚ) (k : Nat)
    (_hk : 1 ≤ k) :
    (similaritySearch store q k).length ≤ k ∧
    (rankedChunks store q).Perm store ∧
    List.Sorted (chunkRank q) (rankedChunks store q) ∧
    List.Sorted (fun x y : String × String × ℚ => y.2.2 ≤ x.2.2)
      (similaritySearch store q k) ∧
    (store.length ≤ k → (similaritySearch store q k).length = store.length) ∧
    (∀ a b : List ℚ, 0 < normSq q → 0 < normSq a → 0 < normSq b →
      (cosineSim q a ≤ cosineSim q b ↔ scoreKey q a ≤ scoreKey q b)) := by
  have hperm : (rankedChunks store q).Perm store := List.perm_insertionSort _ _
  have hsorted : List.Sorted (chunkRank q) (rankedChunks store q) :=
    List.sorted_insertionSort _ _
  have hlenr : (rankedChunks store q).length = store.length := hperm.length_eq
  refine ⟨?_, hperm, hsorted, ?_, ?_, ?_⟩
  · unfold similaritySearch
    rw [List.length_map, List.length_take]
    exact inf_le_left
  · have h1 : List.Pairwise (chunkRank q) ((rankedChunks store q).take k) :=
      List.Pairwise.sublist (List.take_sublist k _) hsorted
    have h2 : List.Pairwise (fun a b : StoredChunk =>
        scoreKey q b.vector ≤ scoreKey q a.vector) ((rankedChunks store q).take k) :=
      h1.imp (fun hab => by
        rcases hab with h | ⟨h, _⟩
        · exact le_of_lt h
        · exact h.symm.le)
    exact List.pairwise_map.mpr h2
  · intro hsk
    unfold similaritySearch
    rw [List.length_map, List.length_take, hlenr]
    omega
  · exact fun a b hq ha hb => scoreKey_le_iff_cosineSim_le q a b hq ha hb

def chunkAlpha : StoredChunk :=
  { text := "alpha", sourcePath := "a.md", ordinal := 0, createdAt := 5,
    contentHash := 1, vector := [1] }

def chunkBeta : StoredChunk :=
  { text := "beta", sourcePath := "b.md", ordinal := 0, createdAt := 9,
    contentHash := 2, vector := [2] }

theorem similaritySearch_spec_witness :
    (similaritySearch [chunkAlpha, chunkBeta] ([1] : List ℚ) 1).length ≤ 1 ∧
    (rankedChunks [chunkAlpha, chunkBeta] ([1] : List ℚ)).Perm [chunkAlpha, chunkBeta] ∧
    List.Sorted (chunkRank ([1] : List ℚ))
      (rankedChunks [chunkAlpha, chunkBeta] ([1] : List ℚ)) ∧
    List.Sorted (fun x y : String × String × ℚ => y.2.2 ≤ x.2.2)
      (similaritySearch [chunkAlpha, chunkBeta] ([1] : List ℚ) 1) ∧
    (([chunkAlpha, chunkBeta] : List StoredChunk).length ≤ 1 →
      (similaritySearch [chunkAlpha, chunkBeta] ([1] : List ℚ) 1).length =
        ([chunkAlpha, chunkBeta] : List StoredChunk).length) ∧
    (∀ a b : List ℚ, 0 < normSq ([1] : List ℚ) → 0 < normSq a → 0 < normSq b →
      (cosineSim ([1] : List ℚ) a ≤ cosineSim ([1] : List ℚ) b ↔
        scoreKey ([1] : List ℚ) a ≤ scoreKey ([1] : List ℚ) b)) :=
  similaritySearch_spec [chunkAlpha, chunkBeta] ([1] : List ℚ) 1 (le_refl 1)

theorem indexFile_manifest (embed : String → List ℚ) (targetSize overlap : Nat)
    (hashFn : String → Nat) (st : RAGState) (path content : String) :
    (indexFile embed targetSize overlap hashFn st path content).manifest =
      st.manifest.filter (fun e => decide (e.1 ≠ path)) ++ [(path, hashFn content)] :=
  rfl

theorem indexFile_store (embed : String → List ℚ) (targetSize overlap : Nat)
    (hashFn : String → Nat) (st : RAGState) (path content : String) :
    (indexFile embed targetSize overlap hashFn st path content).store =
      st.store.filter (fun c => decide (c.sourcePath ≠ path)) ++
        newChunksFor embed targetSize overlap hashFn path content :=
  rfl

theorem lookupHash_filter_append_self (m : List (String × Nat)) (p : String) (h : Nat) :
    lookupHash (m.filter (fun e => decide (e.1 ≠ p)) ++ [(p, h)]) p = some h := by
  induction m with
  | nil => simp [lookupHash]
  | cons e rest ih =>
    by_cases he : e.1 = p
    · simpa [List.filter_cons, he] using ih
    · simpa [List.filter_cons, he, lookupHash] using ih

theorem lookupHash_nil (p : String) : lookupHash [] p = none := rfl

theorem lookupHash_cons (e : String × Nat) (rest : List (String × Nat)) (p : String) :
    lookupHash (e :: rest) p = if e.1 = p then some e.2 else lookupHash rest p := rfl

theorem lookupHash_filter_append_other (m : List (String × Nat)) (p p2 : String) (h : Nat)
    (hne : p ≠ p2) :
    lookupHash (m.filter (fun e => decide (e.1 ≠ p2)) ++ [(p2, h)]) p = lookupHash m p := by
  induction m with
  | nil =>
    simp [lookupHash_nil, lookupHash_cons, Ne.symm hne]
  | cons e rest ih =>
    by_cases he : e.1 = p2
    · have hep : ¬ e.1 = p := fun hc => hne (hc.symm.trans he)
      rw [List.filter_cons_of_neg (by simp [he]), ih, lookupHash_cons, if_neg hep]
    · rw [List.filter_cons_of_pos (by simp [he]), List.cons_append,
        lookupHash_cons, lookupHash_cons, ih]

theorem lookupHash_indexFile_self (embed : String → List ℚ) (targetSize overlap : Nat)
    (hashFn : String → Nat) (st : RAGState) (path content : String) :
    lookupHash (indexFile embed targetSize overlap hashFn st path content).manifest path =
      some (hashFn content) := by
  rw [indexFile_manifest]
  exact lookupHash_filter_append_self st.manifest path (hashFn content)

theorem lookupHash_indexFile_other (embed : String → List ℚ) (targetSize overlap : Nat)
    (hashFn : String → Nat) (st : RAGState) (p path content : String) (hne : p ≠ path) :
    lookupHash (indexFile embed targetSize overlap hashFn st path content).manifest p =
      lookupHash st.manifest p := by
  rw [indexFile_manifest]
  exact lookupHash_filter_append_other st.manifest p path (hashFn content) hne

theorem lookupHash_foldl_other (embed : String → List ℚ) (targetSize overlap : Nat)
    (hashFn : String → Nat) (p : String) :
    ∀ (q : List (String × String)) (st : RAGState), (∀ pc ∈ q, pc.1 ≠ p) →
      lookupHash ((q.foldl
          (fun s pc => indexFile embed targetSize overlap hashFn s pc.1 pc.2) st)).manifest p =
        lookupHash st.manifest p := by
  intro q
  induction q with
  | nil => intro st _; rfl
  | cons hd rest ih =>
    intro st hq
    rw [List.foldl_cons, ih _ (fun x hx => hq x (List.mem_cons_of_mem _ hx))]
    exact lookupHash_indexFile_other embed targetSize overlap hashFn st p hd.1 hd.2
      (Ne.symm (hq hd (List.mem_cons_self _ _)))

theorem lookupHash_foldl_mem (embed : String → List ℚ) (targetSize overlap : Nat)
    (hashFn : String → Nat) :
    ∀ (q : List (String × String)) (st : RAGState) (pc : String × String),
      pc ∈ q → (q.map Prod.fst).Nodup →
      lookupHash ((q.foldl
          (fun s pc => indexFile embed targetSize overlap hashFn s pc.1 pc.2) st)).manifest
        pc.1 = some (hashFn pc.2) := by
  intro q
  induction q with
  | nil =>
    intro st pc hmem _
    simp at hmem
  | cons hd rest ih =>
    intro st pc hmem hnd
    rw [List.foldl_cons]
    rcases List.mem_cons.mp hmem with heq | hmem2
    · subst heq
      have hrest : ∀ x ∈ rest, x.1 ≠ pc.1 := by
        intro x hx hxp
        exact (List.nodup_cons.mp hnd).1 (hxp ▸ List.mem_map_of_mem Prod.fst hx)
      rw [lookupHash_foldl_other embed targetSize overlap hashFn pc.1 rest _ hrest]
      exact lookupHash_indexFile_self embed targetSize overlap hashFn st pc.1 pc.2
    · exact ih _ pc hmem2 (List.nodup_cons.mp hnd).2

theorem nodup_fst_inj (l : List (String × String)) (hnd : (l.map Prod.fst).Nodup)
    (a b : String × String) (ha : a ∈ l) (hb : b ∈ l) (hab : a.1 = b.1) : a = b := by
  induction l with
  | nil => simp at ha
  | cons x rest ih =>
    rcases List.mem_cons.mp ha with rfl | ha2
    · rcases List.mem_cons.mp hb with rfl | hb2
      · rfl
      · exact absurd (hab ▸ List.mem_map_of_mem Prod.fst hb2)
          (List.nodup_cons.mp hnd).1
    · rcases List.mem_cons.mp hb with rfl | hb2
      · exact absurd (hab ▸ List.mem_map_of_mem Prod.fst ha2)
          (List.nodup_cons.mp hnd).1
      · exact ih (List.nodup_cons.mp hnd).2 ha2 hb2

theorem pruneDeleted_manifest (st : RAGState) (paths : List String) :
    (pruneDeleted st paths).manifest =
      st.manifest.filter (fun e => decide (e.1 ∈ paths)) :=
  rfl

theorem pruneDeleted_store (st : RAGState) (paths : List String) :
    (pruneDeleted st paths).store =
      st.store.filter (fun c => decide (c.sourcePath ∈ paths)) :=
  rfl

theorem foldl_paths (embed : String → List ℚ) (targetSize overlap : Nat)
    (hashFn : String → Nat) (paths : List String) :
    ∀ (q : List (String × String)) (st : RAGState),
      (∀ pc ∈ q, pc.1 ∈ paths) →
      (∀ e ∈ st.manifest, e.1 ∈ paths) →
      (∀ ch ∈ st.store, ch.sourcePath ∈ paths) →
      (∀ e ∈ ((q.foldl
          (fun s pc => indexFile embed targetSize overlap hashFn s pc.1 pc.2) st)).manifest,
        e.1 ∈ paths) ∧
      (∀ ch ∈ ((q.foldl
          (fun s pc => indexFile embed targetSize overlap hashFn s pc.1 pc.2) st)).store,
        ch.sourcePath ∈ paths) := by
  intro q
  induction q with
  | nil =>
    intro st _ hm hs
    exact ⟨hm, hs⟩
  | cons hd rest ih =>
    intro st hq hm hs
    rw [List.foldl_cons]
    apply ih
    · exact fun x hx => hq x (List.mem_cons_of_mem _ hx)
    · intro e he
      rw [indexFile_manifest] at he
      rcases List.mem_append.mp he with he1 | he2
      · exact hm e (List.mem_of_mem_filter he1)
      · rw [List.mem_singleton.mp he2]
        exact hq hd (List.mem_cons_self _ _)
    · intro ch hch
      rw [indexFile_store] at hch
      rcases List.mem_append.mp hch with hch1 | hch2
      · exact hs ch (List.mem_of_mem_filter hch1)
      · obtain ⟨pr, _, rfl⟩ := List.mem_map.mp hch2
        exact hq hd (List.mem_cons_self _ _)

theorem indexAll_lookup (embed : String → List ℚ) (targetSize overlap : Nat)
    (hashFn : String → Nat) (corpus : List (String × String)) (st : RAGState)
    (hnd : (corpus.map Prod.fst).Nodup) :
    ∀ pc ∈ corpus,
      lookupHash (indexAll embed targetSize overlap hashFn corpus st).manifest pc.1 =
        some (hashFn pc.2) := by
  intro pc hmem
  unfold indexAll
  have hqsub : (filesToIndex hashFn (pruneDeleted st (corpus.map Prod.fst)) corpus).Sublist
      corpus := List.filter_sublist _
  have hqnd : ((filesToIndex hashFn (pruneDeleted st (corpus.map Prod.fst)) corpus).map
      Prod.fst).Nodup := (hqsub.map Prod.fst).nodup hnd
  by_cases hin : pc ∈ filesToIndex hashFn (pruneDeleted st (corpus.map Prod.fst)) corpus
  · exact lookupHash_foldl_mem embed targetSize overlap hashFn _ _ pc hin hqnd
  · have hlook : lookupHash (pruneDeleted st (corpus.map Prod.fst)).manifest pc.1 =
        some (hashFn pc.2) := by
      by_contra hcontra
      exact hin (List.mem_filter.mpr ⟨hmem, by simpa using hcontra⟩)
    have hother : ∀ x ∈ filesToIndex hashFn (pruneDeleted st (corpus.map Prod.fst)) corpus,
        x.1 ≠ pc.1 := by
      intro x hx hxp
      have hxc : x ∈ corpus := hqsub.subset hx
      have hxeq : x = pc := nodup_fst_inj corpus hnd x pc hxc hmem hxp
      exact hin (hxeq ▸ hx)
    rw [lookupHash_foldl_other embed targetSize overlap hashFn pc.1 _ _ hother]
    exact hlook

theorem indexAll_paths (embed : String → List ℚ) (targetSize overlap : Nat)
    (hashFn : String → Nat) (corpus : List (String × String)) (st : RAGState) :
    (∀ e ∈ (indexAll embed targetSize overlap hashFn corpus st).manifest,
      e.1 ∈ corpus.map Prod.fst) ∧
    (∀ ch ∈ (indexAll embed targetSize overlap hashFn corpus st).store,
      ch.sourcePath ∈ corpus.map Prod.fst) := by
  unfold indexAll
  apply foldl_paths
  · intro x hx
    exact List.mem_map_of_mem Prod.fst (List.mem_of_mem_filter hx)
  · intro e he
    rw [pruneDeleted_manifest] at he
    exact of_decide_eq_true (List.mem_filter.mp he).2
  · intro ch hch
    rw [pruneDeleted_store] at hch
    exact of_decide_eq_true (List.mem_filter.mp hch).2

/-- C6: running `indexAll` twice with no corpus changes leaves the Vector
Store and the manifest byte-for-byte equivalent to their state after the first
run: for a corpus with distinct file paths the second run's diffing queue is
empty (nothing is re-embedded) and the second run is the identity on the
state, so no duplicate chunks are introduced. -/
theorem indexAll_idempotent (embed : String → List ℚ) (targetSize overlap : Nat)
    (hashFn : String → Nat) (corpus : List (String × String)) (st : RAGState)
    (hnd : (corpus.map Prod.fst).Nodup) :
    indexAll embed targetSize overlap hashFn corpus
        (indexAll embed targetSize overlap hashFn corpus st) =
      indexAll embed targetSize overlap hashFn corpus st ∧
    filesToIndex hashFn (indexAll embed targetSize overlap hashFn corpus st) corpus = [] := by
  have hA := indexAll_lookup embed targetSize overlap hashFn corpus st hnd
  have hB := indexAll_paths embed targetSize overlap hashFn corpus st
  have hqnil : filesToIndex hashFn (indexAll embed targetSize overlap hashFn corpus st)
      corpus = [] := by
    unfold filesToIndex
    rw [List.filter_eq_nil_iff]
    intro pc hmem
    simp [hA pc hmem]
  have hprune : pruneDeleted (indexAll embed targetSize overlap hashFn corpus st)
      (corpus.map Prod.fst) = indexAll embed targetSize overlap hashFn corpus st := by
    have hm := List.filter_eq_self.mpr
      (fun e he => decide_eq_true (hB.1 e he))
    have hst := List.filter_eq_self.mpr
      (fun ch hch => decide_eq_true (hB.2 ch hch))
    unfold pruneDeleted
    rw [hm, hst]
  refine ⟨?_, hqnil⟩
  have hdef : indexAll embed targetSize overlap hashFn corpus
      (indexAll embed targetSize overlap hashFn corpus st) =
      (filesToIndex hashFn
          (pruneDeleted (indexAll embed targetSize overlap hashFn corpus st)
            (corpus.map Prod.fst)) corpus).foldl
        (fun s pc => indexFile embed targetSize overlap hashFn s pc.1 pc.2)
        (pruneDeleted (indexAll embed targetSize overlap hashFn corpus st)
          (corpus.map Prod.fst)) := rfl
  rw [hdef, hprune, hqnil]
  rfl

theorem indexAll_idempotent_witness :
    ((([("a.md", "hello world")] : List (String × String)).map Prod.fst).Nodup) ∧
    (indexAll (fun _ => [(1 : ℚ)]) 100 10 String.length [("a.md", "hello world")]
        (indexAll (fun _ => [(1 : ℚ)]) 100 10 String.length [("a.md", "hello world")]
          emptyRAGState) =
      indexAll (fun _ => [(1 : ℚ)]) 100 10 String.length [("a.md", "hello world")]
        emptyRAGState ∧
    filesToIndex String.length
      (indexAll (fun _ => [(1 : ℚ)]) 100 10 String.length [("a.md", "hello world")]
        emptyRAGState) [("a.md", "hello world")] = []) :=
  ⟨by decide, indexAll_idempotent (fun _ => [(1 : ℚ)]) 100 10 String.length
    [("a.md", "hello world")] emptyRAGState (by decide)⟩
